import Mathlib

/-!
Shallow embedding of the bookreader application (`src/bookreader.py`) and a
verification of its stated properties: text segmentation (`smart_chunk_text`),
the text-to-audio conversion pipeline (`prepare_audio_file` with cooperative
cancellation), the playback position tracking loop (`play_audio`), the
pause/resume transitions, the 10-second skip operations, and the TTS voice
selection table.  Text is modelled as `List Char`; machine floats carrying
second counts are modelled as exact rationals.
-/

namespace BookReader

/-- Python `str.strip()` over an explicit character list: drop whitespace from
both ends. -/
def pyStrip (l : List Char) : List Char :=
  ((l.dropWhile Char.isWhitespace).reverse.dropWhile Char.isWhitespace).reverse

/-- Scan `n` consecutive indices starting at `s`, returning the first index
holding character `c`. -/
def findCharAux (text : List Char) (c : Char) : ℕ → ℕ → Option ℕ
  | _, 0 => none
  | s, n + 1 => if text[s]? = some c then some s else findCharAux text c (s + 1) n

/-- Python `text.find(c, s, e)` for a single character `c`, with `none`
standing for the sentinel `-1`. -/
def pyFindChar (text : List Char) (c : Char) (s e : ℕ) : Option ℕ :=
  findCharAux text c s (e - s)

/-- Scan `n` consecutive indices starting at `s` for a double newline. -/
def findNl2Aux (text : List Char) : ℕ → ℕ → Option ℕ
  | _, 0 => none
  | s, n + 1 =>
    if text[s]? = some '\n' ∧ text[s + 1]? = some '\n' then some s
    else findNl2Aux text (s + 1) n

/-- Python two-character `text.find` for a double newline over `[s, e)`: the two-character match must lie entirely
inside `[s, e)`, so candidate positions are `s, …, e - 2`. -/
def pyFindNl2 (text : List Char) (s e : ℕ) : Option ℕ :=
  findNl2Aux text s (e - s - 1)

/-- The cut position chosen by one iteration of `BookReader.smart_chunk_text`
for the chunk starting at `start` (the source variable `end` after the
boundary search). -/
def chunkEnd (text : List Char) (base_size max_extra start : ℕ) : ℕ :=
  let e := min (start + base_size) text.length
  if e < text.length then
    let extra_end := min (e + max_extra) text.length
    match pyFindChar text '.' e extra_end, pyFindNl2 text e extra_end with
    | some f, some d => if f < d then f + 1 else d + 2
    | some f, none => f + 1
    | none, some d => d + 2
    | none, none => extra_end
  else e

/-- Fuel-indexed run of the `while start < len(text)` loop of
`smart_chunk_text`, collecting the raw (untrimmed) slices `text[start:end]`;
`none` means the loop would need more than `fuel` iterations. -/
def chunkLoopRaw (text : List Char) (base_size max_extra : ℕ) :
    ℕ → ℕ → Option (List (List Char))
  | _, 0 => none
  | start, fuel + 1 =>
    if start < text.length then
      match chunkLoopRaw text base_size max_extra
          (chunkEnd text base_size max_extra start) fuel with
      | some rest =>
        some (((text.take (chunkEnd text base_size max_extra start)).drop start) :: rest)
      | none => none
    else some []

/-- The same loop collecting the chunks the source actually appends, namely
`text[start:end].strip()`. -/
def chunkLoop (text : List Char) (base_size max_extra : ℕ) :
    ℕ → ℕ → Option (List (List Char))
  | _, 0 => none
  | start, fuel + 1 =>
    if start < text.length then
      match chunkLoop text base_size max_extra
          (chunkEnd text base_size max_extra start) fuel with
      | some rest =>
        some (pyStrip ((text.take (chunkEnd text base_size max_extra start)).drop start) :: rest)
      | none => none
    else some []

/-- `BookReader.smart_chunk_text`: split text into chunks at logical
boundaries.  Every iteration consumes at least one character whenever
`base_size ≥ 1`, so `text.length + 1` fuel always suffices (proved below). -/
def smart_chunk_text (text : List Char) (base_size : ℕ := 1000)
    (max_extra : ℕ := 512) : List (List Char) :=
  (chunkLoop text base_size max_extra 0 (text.length + 1)).getD []

theorem findCharAux_some {text : List Char} {c : Char} :
    ∀ {n s j : ℕ}, findCharAux text c s n = some j →
      s ≤ j ∧ j < s + n ∧ text[j]? = some c := by
  intro n
  induction n with
  | zero => intro s j h; simp [findCharAux] at h
  | succ n ih =>
    intro s j h
    rw [findCharAux] at h
    split at h
    · rename_i hc
      cases h
      exact ⟨le_rfl, by omega, hc⟩
    · obtain ⟨h1, h2, h3⟩ := ih h
      exact ⟨by omega, by omega, h3⟩

theorem findNl2Aux_some {text : List Char} :
    ∀ {n s j : ℕ}, findNl2Aux text s n = some j →
      s ≤ j ∧ j < s + n ∧ text[j]? = some '\n' ∧ text[j + 1]? = some '\n' := by
  intro n
  induction n with
  | zero => intro s j h; simp [findNl2Aux] at h
  | succ n ih =>
    intro s j h
    rw [findNl2Aux] at h
    split at h
    · rename_i hc
      cases h
      exact ⟨le_rfl, by omega, hc.1, hc.2⟩
    · obtain ⟨h1, h2, h3⟩ := ih h
      exact ⟨by omega, by omega, h3⟩

/-- When `base_size ≥ 1`, each loop iteration makes strict progress and never
cuts past the end of the text. -/
theorem chunkEnd_bounds (text : List Char) (b m start : ℕ) (hb : 1 ≤ b)
    (h : start < text.length) :
    start < chunkEnd text b m start ∧ chunkEnd text b m start ≤ text.length := by
  simp only [chunkEnd]
  split
  · rename_i hlt
    split
    · rename_i f d hf hd
      have h1 := findCharAux_some hf
      have h2 := findNl2Aux_some hd
      split <;> omega
    · rename_i f hf _
      have h1 := findCharAux_some hf
      omega
    · rename_i d _ hd
      have h2 := findNl2Aux_some hd
      omega
    · omega
  · omega

/-- Splitting a list at an interior point: the slice `[s, e)` followed by the
tail from `e` is the tail from `s`. -/
theorem take_drop_append (text : List Char) {s e : ℕ} (h1 : s ≤ e)
    (h2 : e ≤ text.length) :
    (text.take e).drop s ++ text.drop e = text.drop s := by
  conv_rhs => rw [← List.take_append_drop e text]
  rw [List.drop_append_eq_append_drop]
  have hlen : (text.take e).length = e := by
    rw [List.length_take]; omega
  rw [hlen, Nat.sub_eq_zero_of_le h1, List.drop_zero]

/-- The raw slices collected by the loop tile the remainder of the text. -/
theorem chunkLoopRaw_join (text : List Char) (b m : ℕ) (hb : 1 ≤ b) :
    ∀ (fuel start : ℕ) (rs : List (List Char)),
      chunkLoopRaw text b m start fuel = some rs → rs.flatten = text.drop start := by
  intro fuel
  induction fuel with
  | zero => intro start rs h; simp [chunkLoopRaw] at h
  | succ fuel ih =>
    intro start rs h
    rw [chunkLoopRaw] at h
    split at h
    · rename_i hlt
      split at h
      · rename_i rest hrec
        cases h
        have hj := ih (chunkEnd text b m start) rest hrec
        have hcb := chunkEnd_bounds text b m start hb hlt
        simp only [List.flatten_cons, hj]
        exact take_drop_append text (by omega) hcb.2
      · cases h
    · rename_i hge
      cases h
      simp only [List.flatten_nil]
      rw [List.drop_eq_nil_of_le (by omega)]

/-- The chunks the source appends are exactly the stripped raw slices. -/
theorem chunkLoop_eq_map (text : List Char) (b m : ℕ) :
    ∀ fuel start, chunkLoop text b m start fuel =
      (chunkLoopRaw text b m start fuel).map (List.map pyStrip) := by
  intro fuel
  induction fuel with
  | zero => intro start; simp [chunkLoop, chunkLoopRaw]
  | succ fuel ih =>
    intro start
    rw [chunkLoop, chunkLoopRaw]
    split
    · rw [ih]
      cases chunkLoopRaw text b m (chunkEnd text b m start) fuel <;> simp
    · simp


/-- With `base_size ≥ 1` the loop consumes at least one character per
iteration, so `text.length - start + 1` fuel (in particular
`text.length + 1` from the top) always produces a result. -/
theorem chunkLoopRaw_isSome (text : List Char) (b m : ℕ) (hb : 1 ≤ b) :
    ∀ fuel start, text.length - start < fuel →
      ∃ rs, chunkLoopRaw text b m start fuel = some rs := by
  intro fuel
  induction fuel with
  | zero => intro start h; omega
  | succ fuel ih =>
    intro start h
    rw [chunkLoopRaw]
    split
    · rename_i hlt
      have hcb := chunkEnd_bounds text b m start hb hlt
      obtain ⟨rs, hrs⟩ := ih (chunkEnd text b m start) (by omega)
      rw [hrs]
      exact ⟨_, rfl⟩
    · exact ⟨[], rfl⟩

/-- Each produced chunk consumes at least one source character, so there are
at most `text.length - start` chunks. -/
theorem chunkLoopRaw_length_le (text : List Char) (b m : ℕ) (hb : 1 ≤ b) :
    ∀ fuel start rs, chunkLoopRaw text b m start fuel = some rs →
      rs.length ≤ text.length - start := by
  intro fuel
  induction fuel with
  | zero => intro start rs h; simp [chunkLoopRaw] at h
  | succ fuel ih =>
    intro start rs h
    rw [chunkLoopRaw] at h
    split at h
    · rename_i hlt
      split at h
      · rename_i rest hrec
        cases h
        have hlen := ih (chunkEnd text b m start) rest hrec
        have hcb := chunkEnd_bounds text b m start hb hlt
        simp only [List.length_cons]
        omega
      · cases h
    · cases h
      simp

/-- A stripped list is empty exactly when every character was whitespace. -/
theorem pyStrip_eq_nil_iff (l : List Char) :
    pyStrip l = [] ↔ ∀ c ∈ l, c.isWhitespace = true := by
  unfold pyStrip
  rw [List.reverse_eq_nil_iff, List.dropWhile_eq_nil_iff]
  constructor
  · intro h c hc
    by_cases hw : c.isWhitespace = true
    · exact hw
    · exfalso
      have hmem : c ∈ l.dropWhile Char.isWhitespace := by
        by_contra hnm
        have hsplit := List.takeWhile_append_dropWhile (p := Char.isWhitespace) (l := l)
        rw [← hsplit] at hc
        rcases List.mem_append.mp hc with h1 | h1
        · exact hw (List.mem_takeWhile_imp h1)
        · exact hnm h1
      exact hw (h c (List.mem_reverse.mpr hmem))
  · intro h c hc
    exact h c (List.dropWhile_sublist Char.isWhitespace |>.mem (List.mem_reverse.mp hc))

/-- Mapping `pyStrip` over a list relates pointwise to the original list. -/
theorem forall2_strip (P : List Char → List Char → Prop)
    (hP : ∀ r, P (pyStrip r) r) :
    ∀ l : List (List Char), List.Forall₂ P (l.map pyStrip) l := by
  intro l
  induction l with
  | nil => simp
  | cons a t ih => exact List.Forall₂.cons (hP a) ih

/-- If `c` does not occur in the text, the scan finds nothing. -/
theorem findCharAux_none {text : List Char} {c : Char} (hc : c ∉ text) :
    ∀ n s, findCharAux text c s n = none := by
  intro n
  induction n with
  | zero => intro s; simp [findCharAux]
  | succ n ih =>
    intro s
    rw [findCharAux]
    split
    · rename_i h
      exfalso
      rw [List.getElem?_eq_some] at h
      obtain ⟨hs, he⟩ := h
      exact hc (he ▸ List.getElem_mem hs)
    · exact ih (s + 1)

/-- If no two adjacent characters are both newlines, the scan finds nothing. -/
theorem findNl2Aux_none {text : List Char}
    (h2 : ∀ i < text.length, ¬(text[i]? = some '\n' ∧ text[i + 1]? = some '\n')) :
    ∀ n s, findNl2Aux text s n = none := by
  intro n
  induction n with
  | zero => intro s; simp [findNl2Aux]
  | succ n ih =>
    intro s
    rw [findNl2Aux]
    split
    · rename_i h
      exfalso
      have hs : s < text.length := by
        rcases Nat.lt_or_ge s text.length with hlt | hge
        · exact hlt
        · rw [List.getElem?_eq_none hge] at h
          exact absurd h.1 (by simp)
      exact h2 s hs h
    · exact ih (s + 1)

/-- With no period and no paragraph break anywhere, every cut is the hard cut
`min (start + base_size + max_extra) (len text)`. -/
theorem chunkEnd_no_punct (text : List Char) (b m : ℕ)
    (h1 : '.' ∉ text)
    (h2 : ∀ i < text.length, ¬(text[i]? = some '\n' ∧ text[i + 1]? = some '\n'))
    (start : ℕ) :
    chunkEnd text b m start = min (start + b + m) text.length := by
  simp only [chunkEnd, pyFindChar, pyFindNl2, findCharAux_none h1, findNl2Aux_none h2]
  split
  · omega
  · omega

/-- Chunk count under the default parameters when the text has no period and
no paragraph break: every cut advances by exactly 1512 (or to the end), so the
count is the ceiling of `length / 1512`, written `(length - start + 1511) / 1512`. -/
theorem chunkLoopRaw_count (text : List Char)
    (h1 : '.' ∉ text)
    (h2 : ∀ i < text.length, ¬(text[i]? = some '\n' ∧ text[i + 1]? = some '\n')) :
    ∀ fuel start rs, chunkLoopRaw text 1000 512 start fuel = some rs →
      rs.length = (text.length - start + 1511) / 1512 := by
  intro fuel
  induction fuel with
  | zero => intro start rs h; simp [chunkLoopRaw] at h
  | succ fuel ih =>
    intro start rs h
    rw [chunkLoopRaw] at h
    split at h
    · rename_i hlt
      rw [chunkEnd_no_punct text 1000 512 h1 h2 start] at h
      split at h
      · rename_i rest hrec
        cases h
        have hrest := ih _ _ hrec
        simp only [List.length_cons, hrest]
        have hsm : text.length - start + 1511 = (text.length - start - 1) + 1512 := by
          omega
        rw [hsm, Nat.add_div_right _ (by norm_num)]
        rcases Nat.lt_or_ge (start + 1512) text.length with hc | hc
        · have he : min (start + 1000 + 512) text.length = start + 1512 := by omega
          rw [he]
          have harg : text.length - (start + 1512) + 1511 = text.length - start - 1 := by
            omega
          rw [harg]
        · have he : min (start + 1000 + 512) text.length = text.length := by omega
          rw [he]
          have harg : text.length - text.length + 1511 = 1511 := by omega
          rw [harg, Nat.div_eq_of_lt (by norm_num), Nat.div_eq_of_lt (by omega)]
      · cases h
    · rename_i hge
      cases h
      have hz : text.length - start = 0 := by omega
      rw [hz, Nat.div_eq_of_lt (by norm_num)]
      rfl

/-- Peeling one 1512-wide cut off the ceiling count. -/
theorem ceil_count_step (L start : ℕ) (h : start < L) :
    (L - start + 1511) / 1512 = (L - min (start + 1512) L + 1511) / 1512 + 1 := by
  have hsm : L - start + 1511 = (L - start - 1) + 1512 := by omega
  rw [hsm, Nat.add_div_right _ (by norm_num)]
  rcases Nat.lt_or_ge (start + 1512) L with hc | hc
  · have he : min (start + 1512) L = start + 1512 := by omega
    rw [he]
    have harg : L - (start + 1512) + 1511 = L - start - 1 := by omega
    rw [harg]
  · have he : min (start + 1512) L = L := by omega
    rw [he]
    have harg : L - L + 1511 = 1511 := by omega
    have hlast : (L - start - 1) / 1512 = 0 := Nat.div_eq_of_lt (by omega)
    rw [harg, hlast]

/-- Under the default parameters, with no period and no paragraph break the
loop degrades to fixed-size hard cuts: the raw slices collected from `start`
are exactly the consecutive 1512-wide windows
`text[start + 1512 i : min (start + 1512 (i+1), len)]`. -/
theorem chunkLoopRaw_hard_cuts (text : List Char)
    (h1 : '.' ∉ text)
    (h2 : ∀ i < text.length, ¬(text[i]? = some '\n' ∧ text[i + 1]? = some '\n')) :
    ∀ fuel start rs, chunkLoopRaw text 1000 512 start fuel = some rs →
      rs = (List.range ((text.length - start + 1511) / 1512)).map
        (fun i => (text.take (min (start + (i + 1) * 1512) text.length)).drop
          (start + i * 1512)) := by
  intro fuel
  induction fuel with
  | zero => intro start rs h; simp [chunkLoopRaw] at h
  | succ fuel ih =>
    intro start rs h
    rw [chunkLoopRaw] at h
    split at h
    · rename_i hlt
      have hadd : start + 1000 + 512 = start + 1512 := by omega
      have hce : chunkEnd text 1000 512 start = min (start + 1512) text.length := by
        rw [chunkEnd_no_punct text 1000 512 h1 h2 start, hadd]
      split at h
      · rename_i rest hrec
        cases h
        have hrest := ih _ _ hrec
        rw [hce] at hrest ⊢
        rw [ceil_count_step text.length start hlt, List.range_succ_eq_map,
          List.map_cons, List.map_map]
        refine List.cons_eq_cons.mpr ⟨by norm_num, ?_⟩
        rw [hrest]
        rcases Nat.lt_or_ge (start + 1512) text.length with hc | hc
        · have hmin : min (start + 1512) text.length = start + 1512 := by omega
          rw [hmin]
          apply List.map_congr_left
          intro i hi
          simp only [Function.comp_apply, Nat.succ_eq_add_one]
          have e1 : start + 1512 + i * 1512 = start + (i + 1) * 1512 := by ring
          have e2 : start + 1512 + (i + 1) * 1512 = start + (i + 1 + 1) * 1512 := by
            ring
          rw [e1, e2]
        · have hmin : min (start + 1512) text.length = text.length := by omega
          rw [hmin]
          have harg : text.length - text.length + 1511 = 1511 := by omega
          rw [harg, Nat.div_eq_of_lt (by norm_num)]
          simp
      · cases h
    · rename_i hge
      cases h
      have hz : text.length - start = 0 := by omega
      rw [hz]
      have h0 : (0 + 1511) / 1512 = 0 := by norm_num
      rw [h0]
      simp

/-- A non-empty text not longer than the base size is returned as a single
(stripped) chunk. -/
theorem smart_chunk_short (t : List Char) (ht : t ≠ []) (hlen : t.length < 1000) :
    smart_chunk_text t 1000 512 = [pyStrip t] := by
  have h0 : 0 < t.length := List.length_pos.mpr ht
  have hce : chunkEnd t 1000 512 0 = t.length := by
    simp only [chunkEnd]
    have hm : min (0 + 1000) t.length = t.length := by omega
    rw [hm, if_neg (lt_irrefl _)]
  obtain ⟨k, hk⟩ : ∃ k, t.length = k + 1 := ⟨t.length - 1, by omega⟩
  simp only [smart_chunk_text]
  rw [chunkLoop, if_pos h0, hce, hk, chunkLoop, if_neg (by omega)]
  simp only [List.drop_zero, Option.getD_some]
  rw [← hk, List.take_length]

/-- C3: for every non-empty text and positive base size, `smart_chunk_text`
returns a non-empty ordered chunk sequence; the chunks are the
whitespace-trims of raw slices whose in-order concatenation is exactly the
text (reconstruction up to whitespace trimmed at chunk boundaries); and the
output — in particular the chunk count — depends only on the text and the
fixed `base_size`/`max_extra` parameters. -/
theorem smart_chunk_text_reconstruction (text : List Char) (b m : ℕ)
    (ht : text ≠ []) (hb : 1 ≤ b) :
    smart_chunk_text text b m ≠ [] ∧
    (∃ raws : List (List Char), raws.flatten = text ∧
      smart_chunk_text text b m = raws.map pyStrip) ∧
    (∀ t₂ b₂ m₂, t₂ = text → b₂ = b → m₂ = m →
      (smart_chunk_text t₂ b₂ m₂).length = (smart_chunk_text text b m).length) := by
  obtain ⟨rs, hrs⟩ := chunkLoopRaw_isSome text b m hb (text.length + 1) 0 (by omega)
  have hmap : smart_chunk_text text b m = rs.map pyStrip := by
    rw [smart_chunk_text, chunkLoop_eq_map, hrs]
    rfl
  have hjoin : rs.flatten = text := by
    simpa using chunkLoopRaw_join text b m hb (text.length + 1) 0 rs hrs
  refine ⟨?_, ⟨rs, hjoin, hmap⟩, ?_⟩
  · rw [hmap]
    cases rs with
    | nil => exact absurd hjoin.symm ht
    | cons a l => simp
  · intro t₂ b₂ m₂ e1 e2 e3
    subst e1
    subst e2
    subst e3
    rfl

/-- Witness for C3 at the concrete text "hi". -/
theorem smart_chunk_text_reconstruction_witness :
    (['h', 'i'] : List Char) ≠ [] ∧ 1 ≤ 1000 ∧
    (smart_chunk_text ['h', 'i'] 1000 512 ≠ [] ∧
      (∃ raws : List (List Char), raws.flatten = ['h', 'i'] ∧
        smart_chunk_text ['h', 'i'] 1000 512 = raws.map pyStrip) ∧
      (∀ t₂ b₂ m₂, t₂ = ['h', 'i'] → b₂ = 1000 → m₂ = 512 →
        (smart_chunk_text t₂ b₂ m₂).length = (smart_chunk_text ['h', 'i'] 1000 512).length)) :=
  ⟨by decide, by decide,
    smart_chunk_text_reconstruction ['h', 'i'] 1000 512 (by decide) (by decide)⟩

/-- 1000 letters, a period just past the base size, then only spaces: the
trailing slice strips to the empty chunk. -/
def whitespaceTailText : List Char := List.replicate 1000 'a' ++ ['.', ' ', ' ', ' ']

set_option maxRecDepth 100000

/-- C9 counterexample: `smart_chunk_text` produces a chunk that is empty after
trimming, refuting "every produced chunk is non-empty after trimming". -/
theorem smart_chunk_text_empty_chunk :
    [] ∈ smart_chunk_text whitespaceTailText 1000 512 := by decide

/-- C9 (amended): chunks are contiguous and exhaustive over the source (the
raw slices concatenate to the text in order) and each chunk is the
whitespace-trim of its slice, non-empty precisely when its slice contains a
non-whitespace character; a whitespace-only slice yields an empty chunk. -/
theorem smart_chunk_text_slices (text : List Char) (b m : ℕ) (hb : 1 ≤ b) :
    ∃ raws : List (List Char), raws.flatten = text ∧
      List.Forall₂
        (fun c r => c = pyStrip r ∧ (c ≠ [] ↔ ∃ ch ∈ r, ch.isWhitespace = false))
        (smart_chunk_text text b m) raws := by
  obtain ⟨rs, hrs⟩ := chunkLoopRaw_isSome text b m hb (text.length + 1) 0 (by omega)
  have hmap : smart_chunk_text text b m = rs.map pyStrip := by
    rw [smart_chunk_text, chunkLoop_eq_map, hrs]
    rfl
  have hjoin : rs.flatten = text := by
    simpa using chunkLoopRaw_join text b m hb (text.length + 1) 0 rs hrs
  refine ⟨rs, hjoin, ?_⟩
  rw [hmap]
  apply forall2_strip
  intro r
  refine ⟨rfl, ?_⟩
  rw [Ne, pyStrip_eq_nil_iff]
  push_neg
  simp only [Bool.not_eq_true]

/-- Witness for C9 at the concrete text "hi". -/
theorem smart_chunk_text_slices_witness :
    1 ≤ 1000 ∧
    (∃ raws : List (List Char), raws.flatten = ['h', 'i'] ∧
      List.Forall₂
        (fun c r => c = pyStrip r ∧ (c ≠ [] ↔ ∃ ch ∈ r, ch.isWhitespace = false))
        (smart_chunk_text ['h', 'i'] 1000 512) raws) :=
  ⟨by decide, smart_chunk_text_slices ['h', 'i'] 1000 512 (by decide)⟩

/-- C10: with `base_size ≥ 1` the start offset strictly increases on each
loop iteration, so fuel `text.length + 1` suffices — the loop terminates
within `text.length` iterations — and the resulting chunk list is finite,
with at most `text.length` entries. -/
theorem smart_chunk_text_terminates (text : List Char) (b m : ℕ) (hb : 1 ≤ b) :
    (∀ start < text.length, start < chunkEnd text b m start) ∧
    chunkLoop text b m 0 (text.length + 1) = some (smart_chunk_text text b m) ∧
    (smart_chunk_text text b m).length ≤ text.length := by
  obtain ⟨rs, hrs⟩ := chunkLoopRaw_isSome text b m hb (text.length + 1) 0 (by omega)
  have hloop : chunkLoop text b m 0 (text.length + 1) = some (rs.map pyStrip) := by
    rw [chunkLoop_eq_map, hrs]
    rfl
  have hmap : smart_chunk_text text b m = rs.map pyStrip := by
    rw [smart_chunk_text, hloop]
    rfl
  refine ⟨fun s hs => (chunkEnd_bounds text b m s hb hs).1, ?_, ?_⟩
  · rw [hloop, hmap]
  · rw [hmap, List.length_map]
    have := chunkLoopRaw_length_le text b m hb (text.length + 1) 0 rs hrs
    omega

/-- Witness for C10 at the concrete text "hi" with the default parameters. -/
theorem smart_chunk_text_terminates_witness :
    1 ≤ 1000 ∧
    ((∀ start < (['h', 'i'] : List Char).length, start < chunkEnd ['h', 'i'] 1000 512 start) ∧
      chunkLoop ['h', 'i'] 1000 512 0 ((['h', 'i'] : List Char).length + 1) =
        some (smart_chunk_text ['h', 'i'] 1000 512) ∧
      (smart_chunk_text ['h', 'i'] 1000 512).length ≤ (['h', 'i'] : List Char).length) :=
  ⟨by decide, smart_chunk_text_terminates ['h', 'i'] 1000 512 (by decide)⟩

/-- C4 counterexample: the empty text is shorter than the base size yet yields
zero chunks, not one. -/
theorem smart_chunk_text_empty_text :
    ([] : List Char).length < 1000 ∧ (smart_chunk_text [] 1000 512).length ≠ 1 := by
  decide

/-- C4 (amended): with the defaults `base_size = 1000`, `max_extra = 512`, a
text containing no period and no double newline splits into exactly
`⌈L / 1512⌉` chunks, i.e. `(L + 1511) / 1512`, each a fixed-size hard cut —
chunk `i` is the trim of the slice `text[1512 i : min (1512 (i+1), L)]`; and
any NON-empty text shorter than the base size yields exactly one chunk (the
empty text yields zero). -/
theorem smart_chunk_text_count (text : List Char)
    (h1 : '.' ∉ text)
    (h2 : ∀ i < text.length, ¬(text[i]? = some '\n' ∧ text[i + 1]? = some '\n')) :
    (smart_chunk_text text 1000 512).length = (text.length + 1511) / 1512 ∧
    smart_chunk_text text 1000 512 =
      (List.range ((text.length + 1511) / 1512)).map
        (fun i => pyStrip ((text.take (min ((i + 1) * 1512) text.length)).drop
          (i * 1512))) ∧
    (∀ t : List Char, t ≠ [] → t.length < 1000 →
      (smart_chunk_text t 1000 512).length = 1) := by
  obtain ⟨rs, hrs⟩ :=
    chunkLoopRaw_isSome text 1000 512 (by norm_num) (text.length + 1) 0 (by omega)
  have hmap : smart_chunk_text text 1000 512 = rs.map pyStrip := by
    rw [smart_chunk_text, chunkLoop_eq_map, hrs]
    rfl
  refine ⟨?_, ?_, ?_⟩
  · rw [hmap, List.length_map, chunkLoopRaw_count text h1 h2 _ _ _ hrs, Nat.sub_zero]
  · have hhc := chunkLoopRaw_hard_cuts text h1 h2 _ _ _ hrs
    rw [hmap, hhc, List.map_map, Nat.sub_zero]
    apply List.map_congr_left
    intro i hi
    simp only [Function.comp_apply, Nat.zero_add]
  · intro t h1t h2t
    rw [smart_chunk_short t h1t h2t]
    rfl

/-- Witness for C4 at the concrete text "a". -/
theorem smart_chunk_text_count_witness :
    ('.' ∉ (['a'] : List Char)) ∧
    (∀ i < (['a'] : List Char).length,
      ¬((['a'] : List Char)[i]? = some '\n' ∧ (['a'] : List Char)[i + 1]? = some '\n')) ∧
    ((smart_chunk_text ['a'] 1000 512).length = ((['a'] : List Char).length + 1511) / 1512 ∧
      smart_chunk_text ['a'] 1000 512 =
        (List.range (((['a'] : List Char).length + 1511) / 1512)).map
          (fun i => pyStrip (((['a'] : List Char).take
            (min ((i + 1) * 1512) (['a'] : List Char).length)).drop (i * 1512))) ∧
      (∀ t : List Char, t ≠ [] → t.length < 1000 →
        (smart_chunk_text t 1000 512).length = 1)) :=
  ⟨by decide, by decide, smart_chunk_text_count ['a'] (by decide) (by decide)⟩

/-!  Playback engine (`BookReader.play_audio`, `pause`, `resume`):
position in seconds is modelled as an exact rational, the audio device by the
busy flag the source reads through `pygame.mixer.music.get_busy()`. -/

/-- The mutable playback state touched by the tracking loop and the
pause/resume handlers. -/
structure PlayerState where
  position : ℚ
  is_playing : Bool
  device_busy : Bool
deriving DecidableEq

/-- One check of the `while pygame.mixer.music.get_busy() and self.is_playing`
loop in `play_audio`, fed the device-reported elapsed milliseconds
(`pygame.mixer.music.get_pos()`): if the loop continues it executes
`self.position += pos_ms / 1000.0`; if the condition fails it runs the
epilogue `self.is_playing = False; self.position = 0`. -/
def play_audio_step (s : PlayerState) (pos_ms : ℤ) : PlayerState :=
  if s.device_busy && s.is_playing then
    if 0 ≤ pos_ms then { s with position := s.position + (pos_ms : ℚ) / 1000 } else s
  else { s with is_playing := false, position := 0 }

/-- `BookReader.pause`: only acts when playing with active device output;
tells the device to pause and clears the playing flag, leaving `position`
untouched. -/
def pause (s : PlayerState) : PlayerState :=
  if s.is_playing && s.device_busy then { s with is_playing := false } else s

/-- `BookReader.resume`: only acts when not playing and the device still
reports a loaded stream; unpauses and sets the playing flag. -/
def resume (s : PlayerState) : PlayerState :=
  if !s.is_playing && s.device_busy then { s with is_playing := true } else s

/-- C1: the tracking loop ACCUMULATES successive device-elapsed readings
(`self.position += pos_ms / 1000.0`) instead of recomputing
`start + elapsed`.  Starting at position 0 and polling once per second for 5
seconds, the device reports 1000, 2000, 3000, 4000, 5000 ms elapsed and the
tracked position ends at 15, not the 5 required by the specification. -/
theorem play_audio_position_accumulates :
    (([1000, 2000, 3000, 4000, 5000] : List ℤ).foldl play_audio_step
        ⟨0, true, true⟩).position = 15 ∧ (15 : ℚ) ≠ 5 := by
  constructor
  · norm_num [List.foldl, play_audio_step]
  · norm_num

/-- C2: `pause()` itself retains the tracked position, but the tracking
loop, at its next wake-up, observes `is_playing = False`, exits, and runs the
epilogue that resets `position` to 0 (`play_audio`, lines 459–463), so a
subsequent `resume()` proceeds with tracked position 0 instead of the
retained 42. -/
theorem pause_then_loop_resets_position :
    (pause ⟨42, true, true⟩).position = 42 ∧
    (play_audio_step (pause ⟨42, true, true⟩) 1000).position = 0 ∧
    (resume (play_audio_step (pause ⟨42, true, true⟩) 1000)).position = 0 ∧
    (0 : ℚ) ≠ 42 := by
  refine ⟨by decide, by decide, by decide, by decide⟩

/-!  Skip operations (`BookReader.skip_forward`, `skip_backward`) and the
cached duration (`get_audio_duration`). -/

/-- `BookReader.get_audio_duration`: the cached duration, or 0 if it has not
been calculated yet (`self.duration is None`). -/
def get_audio_duration (duration : Option ℤ) : ℤ :=
  duration.getD 0

/-- `BookReader.skip_forward`: `position = min(total, position + 10) if
total > 0 else position + 10`. -/
def skip_forward (duration : Option ℤ) (p : ℚ) : ℚ :=
  if 0 < get_audio_duration duration then
    min ((get_audio_duration duration : ℤ) : ℚ) (p + 10)
  else p + 10

/-- `BookReader.skip_backward`: `position = max(0, position - 10)`. -/
def skip_backward (p : ℚ) : ℚ :=
  max 0 (p - 10)

/-- C7: with a known positive duration `D`, `skip_forward` yields
`min D (p + 10)` and any number of repeated applications stays ≤ `D`;
`skip_backward` yields `max 0 (p - 10)` and repeated applications stay ≥ 0;
with the duration unknown, `skip_forward` is unclamped above (`p + 10`) and
only the backward skip clamps at 0. -/
theorem skip_clamping (D : ℤ) (hD : 0 < D) (p : ℚ) :
    skip_forward (some D) p = min ((D : ℤ) : ℚ) (p + 10) ∧
    (∀ (k : ℕ) (q : ℚ), (fun x => skip_forward (some D) x)^[k + 1] q ≤ ((D : ℤ) : ℚ)) ∧
    skip_backward p = max 0 (p - 10) ∧
    (∀ (k : ℕ) (q : ℚ), 0 ≤ skip_backward^[k + 1] q) ∧
    skip_forward none p = p + 10 := by
  have hDq : (0 : ℚ) < ((D : ℤ) : ℚ) := by exact_mod_cast hD
  have hfwd : ∀ x : ℚ, skip_forward (some D) x = min ((D : ℤ) : ℚ) (x + 10) := by
    intro x
    have hval : get_audio_duration (some D) = D := rfl
    rw [skip_forward, hval, if_pos hD]
  refine ⟨hfwd p, ?_, rfl, ?_, ?_⟩
  · intro k q
    rw [Function.iterate_succ_apply']
    rw [hfwd]
    exact min_le_left _ _
  · intro k q
    rw [Function.iterate_succ_apply']
    exact le_max_left _ _
  · rw [skip_forward, if_neg]
    simp [get_audio_duration]

/-- Witness for C7 with duration 120 s and position 115 s. -/
theorem skip_clamping_witness :
    (0 : ℤ) < 120 ∧
    (skip_forward (some 120) 115 = min (((120 : ℤ) : ℤ) : ℚ) (115 + 10) ∧
      (∀ (k : ℕ) (q : ℚ),
        (fun x => skip_forward (some 120) x)^[k + 1] q ≤ (((120 : ℤ) : ℤ) : ℚ)) ∧
      skip_backward 115 = max 0 (115 - 10) ∧
      (∀ (k : ℕ) (q : ℚ), 0 ≤ skip_backward^[k + 1] q) ∧
      skip_forward none 115 = 115 + 10) :=
  ⟨by decide, skip_clamping 120 (by decide) 115⟩

/-!  TTS voice selection (`TTS.__init__`). -/

/-- The fixed voice table of `TTS.__init__`, mapping voice names to their
supported quality tiers. -/
def available_voices : List (String × List String) :=
  [("alan", ["medium", "low"]),
   ("alba", ["medium"]),
   ("aru", ["medium"]),
   ("cori", ["medium"]),
   ("jenny_dioco", ["medium"]),
   ("northern_english_male", ["medium"]),
   ("semaine", ["medium"]),
   ("southern_english_female", ["low"]),
   ("vctk", ["medium"])]

/-- `self.voice = voice or "jenny_dioco"`: the default applies only to a
missing (`None`) or empty voice argument. -/
def tts_voice : Option String → String
  | none => "jenny_dioco"
  | some s => if s = "" then "jenny_dioco" else s

/-- The source quality choice: "medium" if the selected voice is a key of
`available_voices` and "medium" is among its tiers, else "low". -/
def tts_quality (v : Option String) : String :=
  match available_voices.lookup (tts_voice v) with
  | some qs => if "medium" ∈ qs then "medium" else "low"
  | none => "low"

/-- `self.model_path = f"en_GB-{self.voice}-{quality}.onnx"`. -/
def tts_model_path (v : Option String) : String :=
  "en_GB-" ++ tts_voice v ++ "-" ++ tts_quality v ++ ".onnx"

/-- C8 counterexample: the voice name "bogus" is not in the table, yet the
selected voice is "bogus" itself (with quality "low" and a resource path
built from it), not the fixed built-in default "jenny_dioco": only a
missing/empty voice argument falls back to the built-in voice. -/
theorem tts_unknown_voice_not_default :
    available_voices.lookup "bogus" = none ∧
    tts_voice (some "bogus") = "bogus" ∧
    tts_voice (some "bogus") ≠ tts_voice none ∧
    tts_model_path (some "bogus") = "en_GB-bogus-low.onnx" := by
  refine ⟨by decide, by decide, by decide, by decide⟩

/-- C8 (amended): voice selection is a static lookup over the fixed table —
for a name present in the table, quality "medium" is chosen when supported
and "low" otherwise; a missing (`None`) voice argument defaults to the
built-in "jenny_dioco"; a non-empty voice name absent from the table is kept
as-is with quality "low". -/
theorem tts_selection (v : String) (hv : v ≠ "") :
    (∀ qs, available_voices.lookup v = some qs →
      tts_voice (some v) = v ∧
      tts_quality (some v) = if "medium" ∈ qs then "medium" else "low") ∧
    (available_voices.lookup v = none →
      tts_voice (some v) = v ∧ tts_quality (some v) = "low") ∧
    tts_voice none = "jenny_dioco" := by
  have hkeep : tts_voice (some v) = v := by
    rw [tts_voice, if_neg hv]
  refine ⟨?_, ?_, rfl⟩
  · intro qs hq
    refine ⟨hkeep, ?_⟩
    rw [tts_quality, hkeep, hq]
  · intro hq
    refine ⟨hkeep, ?_⟩
    rw [tts_quality, hkeep, hq]

/-- Witness for C8 (amended) at the table entry "alba". -/
theorem tts_selection_witness :
    ("alba" : String) ≠ "" ∧
    ((∀ qs, available_voices.lookup "alba" = some qs →
      tts_voice (some "alba") = "alba" ∧
      tts_quality (some "alba") = if "medium" ∈ qs then "medium" else "low") ∧
    (available_voices.lookup "alba" = none →
      tts_voice (some "alba") = "alba" ∧ tts_quality (some "alba") = "low") ∧
    tts_voice none = "jenny_dioco") :=
  ⟨by decide, tts_selection "alba" (by decide)⟩

/-!  Conversion pipeline (`BookReader.prepare_audio_file`, text branch, with
the cooperative cancellation flag of `BookReader.cancel`).

The shared boolean `self.cancel_processing` is read at discrete check points:
once at the top of each synthesis iteration (`for i, chunk in
enumerate(chunks): if self.cancel_processing: …`, check indices `0 … n-1`)
and once more before the export (`if combined and not
self.cancel_processing`, check index `n`).  It is modelled as the schedule
`cancel : ℕ → Bool` of the values those reads observe; the real flag is
set-once, hence the schedule is monotone. -/

/-- Outcome of one `prepare_audio_file` run over a `.txt` source. -/
structure PrepResult where
  /-- The returned path of the exported MP3, or `None`. -/
  track : Option String
  /-- Per-chunk WAV files still on disk when the call returns. -/
  residualChunkFiles : List ℕ
  /-- Number of per-chunk TTS synthesis calls performed. -/
  synthCalls : ℕ
deriving DecidableEq

/-- The synthesis `for` loop starting at chunk `i` with `r` chunks left:
returns the loop index reached (= synthesis calls performed) and whether the
cancellation check fired.  When it fires, every WAV produced so far is
removed before returning. -/
def synthLoop (cancel : ℕ → Bool) : ℕ → ℕ → ℕ × Bool
  | i, 0 => (i, false)
  | i, r + 1 => if cancel i then (i, true) else synthLoop cancel (i + 1) r

/-- `BookReader.prepare_audio_file` on a `.txt` file whose content is
`content`: strip, reject empty text, chunk, synthesize per chunk with a
cancellation check before each chunk, combine (deleting every chunk WAV in
the `finally` block), and export unless cancelled; `clipNonempty i` tells
whether the i-th synthesized clip has positive duration (the `if combined`
truthiness) and `exportOk` whether the MP3 export succeeds. -/
def prepare_audio_file (content : List Char) (cancel : ℕ → Bool)
    (clipNonempty : ℕ → Bool) (exportOk : Bool) : PrepResult :=
  if pyStrip content = [] then ⟨none, [], 0⟩
  else
    if smart_chunk_text (pyStrip content) 1000 512 = [] then ⟨none, [], 0⟩
    else
      if (synthLoop cancel 0 (smart_chunk_text (pyStrip content) 1000 512).length).2 then
        ⟨none, [], (synthLoop cancel 0 (smart_chunk_text (pyStrip content) 1000 512).length).1⟩
      else
        if ((List.range (smart_chunk_text (pyStrip content) 1000 512).length).any
              clipNonempty)
            && !(cancel (smart_chunk_text (pyStrip content) 1000 512).length) then
          if exportOk then
            ⟨some "output.mp3", [], (smart_chunk_text (pyStrip content) 1000 512).length⟩
          else ⟨none, [], (smart_chunk_text (pyStrip content) 1000 512).length⟩
        else ⟨none, [], (smart_chunk_text (pyStrip content) 1000 512).length⟩

/-- C5: if the cancellation flag is set (monotonically) at or before some
check point of the running job, the job returns `None` — no track — and no
per-chunk WAV file remains on disk. -/
theorem prepare_audio_file_cancelled (content : List Char) (cancel : ℕ → Bool)
    (clipNonempty : ℕ → Bool) (exportOk : Bool)
    (hmono : ∀ i j, i ≤ j → cancel i = true → cancel j = true)
    (hset : ∃ k, k ≤ (smart_chunk_text (pyStrip content) 1000 512).length ∧
      cancel k = true) :
    (prepare_audio_file content cancel clipNonempty exportOk).track = none ∧
    (prepare_audio_file content cancel clipNonempty exportOk).residualChunkFiles = [] := by
  obtain ⟨k, hk, hck⟩ := hset
  have hn : cancel (smart_chunk_text (pyStrip content) 1000 512).length = true :=
    hmono k _ hk hck
  rw [prepare_audio_file]
  split
  · exact ⟨rfl, rfl⟩
  · split
    · exact ⟨rfl, rfl⟩
    · split
      · exact ⟨rfl, rfl⟩
      · rw [hn]
        simp only [Bool.not_true, Bool.and_false, if_false]
        exact ⟨rfl, rfl⟩

/-- Witness for C5: two-character content, flag already set at the first
check. -/
theorem prepare_audio_file_cancelled_witness :
    (∀ i j : ℕ, i ≤ j → (fun _ : ℕ => true) i = true → (fun _ : ℕ => true) j = true) ∧
    (∃ k, k ≤ (smart_chunk_text (pyStrip ['h', 'i']) 1000 512).length ∧
      (fun _ : ℕ => true) k = true) ∧
    ((prepare_audio_file ['h', 'i'] (fun _ => true) (fun _ => true) true).track = none ∧
      (prepare_audio_file ['h', 'i'] (fun _ => true) (fun _ => true)
          true).residualChunkFiles = []) :=
  ⟨fun _ _ _ h => h, ⟨0, Nat.zero_le _, rfl⟩,
    prepare_audio_file_cancelled ['h', 'i'] (fun _ => true) (fun _ => true) true
      (fun _ _ _ h => h) ⟨0, Nat.zero_le _, rfl⟩⟩

/-- C6: empty or whitespace-only content is rejected up front —
`prepare_audio_file` returns `None` having made no synthesis call and
created no artifact. -/
theorem prepare_audio_file_empty_input (content : List Char)
    (hw : ∀ c ∈ content, c.isWhitespace = true)
    (cancel : ℕ → Bool) (clipNonempty : ℕ → Bool) (exportOk : Bool) :
    prepare_audio_file content cancel clipNonempty exportOk = ⟨none, [], 0⟩ := by
  rw [prepare_audio_file, if_pos ((pyStrip_eq_nil_iff content).mpr hw)]

/-- Witness for C6 at whitespace-only content. -/
theorem prepare_audio_file_empty_input_witness :
    (∀ c ∈ ([' ', '\t'] : List Char), c.isWhitespace = true) ∧
    prepare_audio_file [' ', '\t'] (fun _ => false) (fun _ => true) true =
      ⟨none, [], 0⟩ :=
  ⟨by decide,
    prepare_audio_file_empty_input [' ', '\t'] (by decide) (fun _ => false)
      (fun _ => true) true⟩

end BookReader
